import Mathlib

/-!
A shallow embedding of `day4-swantides/extract_tides.py` (BOM tide-chart
extraction script for the year 2026) and proofs about its specification.

Modelling conventions:
* Python strings are `String`; token streams are `List String` (the script
  keeps the vertical position of each token alongside its text, but the
  parsing logic only ever reads the text, so positions are dropped here;
  likewise the geometric pre-sorting of words happens before the token
  stream exists, and the claims quantify over token streams).
* Python `float` values that the script range-checks are exact decimal
  values: `float(tok)` is modelled by `parseFloat`, which parses an
  optional sign and a decimal digit string with at most one dot into a
  `Dec` (sign, numerator, power-of-ten denominator), compared exactly by
  integer cross-multiplication.  Exotic float syntax (exponents, inf/nan,
  underscores, surrounding whitespace) does not occur in PDF word tokens
  and is not modelled; IEEE-754 rounding is abstracted to exact decimal
  arithmetic, which agrees with float comparison on the short decimals the
  script handles.
* Python's stable `list.sort` is modelled by a stable insertion sort
  (`sortByKey`): for a total preorder the output of any stable sort is the
  same list.
* Python `dict` (insertion-ordered, last write wins) is modelled by an
  association list with an `upsert` operation.
* `datetime.date(2026, m, d)` raising `ValueError` is modelled by the
  decidable test `validDay2026`; 2026 is not a leap year, so validity is
  exactly `1 ≤ m ≤ 12 ∧ 1 ≤ d ≤ DAYS_IN_MONTH[m-1]`.
-/

/-- `int(s)` on a digit string / accumulating decimal digit value. -/
def digitsVal (cs : List Char) : Nat :=
  cs.foldl (fun n c => n * 10 + (c.toNat - 48)) 0

/-- `int(token)` for the digit-only tokens the script converts. -/
def strToNat (s : String) : Nat := digitsVal s.data

/-- Exact decimal number: `(if neg then -1 else 1) * num / den`,
with `den` a power of ten produced by the parser. -/
structure Dec where
  neg : Bool
  num : Nat
  den : Nat
deriving DecidableEq

/-- Signed numerator of a `Dec`. -/
def Dec.snum (a : Dec) : Int := if a.neg then -(a.num : Int) else (a.num : Int)

/-- Exact order on decimal values, by integer cross-multiplication. -/
def Dec.le (a b : Dec) : Prop := a.snum * (b.den : Int) ≤ b.snum * (a.den : Int)

instance (a b : Dec) : Decidable (Dec.le a b) := by unfold Dec.le; infer_instance

/-- Strict order on decimal values. -/
def Dec.lt (a b : Dec) : Prop := a.snum * (b.den : Int) < b.snum * (a.den : Int)

instance (a b : Dec) : Decidable (Dec.lt a b) := by unfold Dec.lt; infer_instance

/-- The decimal 0.0 (lower bound of the valid tide range). -/
def dec0 : Dec := ⟨false, 0, 1⟩

/-- The decimal 2.5 (upper bound of the valid tide range). -/
def dec2_5 : Dec := ⟨false, 25, 10⟩

/-- The decimal 0.8 (classifier fallback threshold). -/
def dec0_8 : Dec := ⟨false, 8, 10⟩

/-- Core of `float(s)`: digits with at most one `.`, at least one digit. -/
def parseDecCore (cs : List Char) : Option Dec :=
  if cs ≠ [] ∧ cs.all Char.isDigit then
    some ⟨false, digitsVal cs, 1⟩
  else
    match cs.splitOn '.' with
    | [ip, fp] =>
      if (ip ≠ [] ∨ fp ≠ []) ∧ ip.all Char.isDigit ∧ fp.all Char.isDigit then
        some ⟨false, digitsVal ip * 10 ^ fp.length + digitsVal fp, 10 ^ fp.length⟩
      else none
    | _ => none

/-- `float(s)` as used by the script (decimal literals with optional sign). -/
def parseFloat (s : String) : Option Dec :=
  match s.data with
  | '-' :: cs => (parseDecCore cs).map (fun d => ⟨true, d.num, d.den⟩)
  | '+' :: cs => parseDecCore cs
  | cs => parseDecCore cs

/-- `YEAR = 2026`. -/
def YEAR : Nat := 2026

/-- `DAYS_IN_MONTH` from the script (2026 is not a leap year). -/
def DAYS_IN_MONTH : List Nat := [31, 28, 31, 30, 31, 30, 31, 31, 30, 31, 30, 31]

/-- `date(YEAR, monthIdx + 1, d)` succeeds (no `ValueError`). -/
def validDay2026 (monthIdx d : Nat) : Bool :=
  decide (monthIdx < 12) && decide (1 ≤ d) && decide (d ≤ DAYS_IN_MONTH.getD monthIdx 0)

/-- Zero-padded two-digit rendering used by `date.isoformat()`. -/
def pad2 (n : Nat) : String := if n < 10 then "0" ++ toString n else toString n

/-- `date(2026, m, d).isoformat()`. -/
def isoDate (m d : Nat) : String := "2026-" ++ pad2 m ++ "-" ++ pad2 d

/-- `f"{time_str[:2]}:{time_str[2:]}"` (Python slicing is by characters,
so it is rendered directly on the character list). -/
def fmtTime (t : String) : String := ⟨t.data.take 2 ++ ':' :: t.data.drop 2⟩

/-- An extracted entry before classification:
`{'date': ..., 'time': ..., 'height': ...}`. -/
structure TideEntry where
  date : String
  time : String
  height : Dec
deriving DecidableEq

instance : Inhabited TideEntry := ⟨⟨"", "", dec0⟩⟩

/-- An entry after `classify_tides` added its `'type'` key. -/
structure TypedEntry where
  date : String
  time : String
  height : Dec
  type : String
deriving DecidableEq

instance : Inhabited TypedEntry := ⟨⟨"", "", dec0, ""⟩⟩

/-- `re.match(r'^([A-Z]{2,3})(\d{4})$', text)`-driven splitting of merged
tokens such as `"TU1413"`; the 2-or-3 letter group is greedy, so a 7-char
match takes 3 letters. -/
def parse_merged_text (text : String) : List String :=
  let cs := text.data
  if cs.length = 7 ∧ (cs.take 3).all Char.isUpper ∧ (cs.drop 3).all Char.isDigit then
    [text.take 3, text.drop 3]
  else if cs.length = 6 ∧ (cs.take 2).all Char.isUpper ∧ (cs.drop 2).all Char.isDigit then
    [text.take 2, text.drop 2]
  else [text]

/-- `token.isdigit() and len(token) <= 2 and 1 <= int(token) <= 31`. -/
def isDayToken (t : String) : Bool :=
  decide (t.data ≠ []) && t.data.all Char.isDigit && decide (t.length ≤ 2)
    && decide (1 ≤ strToNat t) && decide (strToNat t ≤ 31)

/-- `re.match(r'^\d{4}$', token)`. -/
def isTimeToken (t : String) : Bool :=
  decide (t.length = 4) && t.data.all Char.isDigit

/-- `float(next_token)` succeeded and `0.0 <= height <= 2.5`. -/
def heightInRange (h : Dec) : Prop := Dec.le dec0 h ∧ Dec.le h dec2_5

instance (h : Dec) : Decidable (heightInRange h) := by
  unfold heightInRange; infer_instance

/-- The combined lookahead test of the loop: `float(next_token)` does not
raise and the value passes `0.0 <= height <= 2.5`.  A token with
`heightOk tok = false` is a malformed height: it is either unparseable or
out of the valid tide range. -/
def heightOk (tok : String) : Bool :=
  ((parseFloat tok).map (fun h => decide (heightInRange h))).getD false

/-- The `while i < len(tokens_stream)` loop of `extract_from_column`,
threading the `current_day` state; returns the emitted entries together
with the final `current_day` (so that claims about the evolution of the
day state can be expressed). -/
def extractLoop (monthIdx : Nat) : List String → Option Nat → List TideEntry × Option Nat
  | [], day => ([], day)
  | [t], day =>
    -- a lone final token: a day token still updates current_day; a time
    -- token has no lookahead (`i + 1 < len` fails) and is dropped
    if isDayToken t then ([], some (strToNat t)) else ([], day)
  | t :: next :: rest2, day =>
    if isDayToken t then
      -- branch 1: set current_day and advance one token
      extractLoop monthIdx (next :: rest2) (some (strToNat t))
    else if isTimeToken t then
      match parseFloat next with
      | some h =>
        if heightInRange h then
          -- height consumed (i += 2); entry emitted only with a day set
          -- and a date that `datetime.date` accepts
          match day with
          | some d =>
            if validDay2026 monthIdx d then
              let res := extractLoop monthIdx rest2 day
              (⟨isoDate (monthIdx + 1) d, fmtTime t, h⟩ :: res.1, res.2)
            else extractLoop monthIdx rest2 day
          | none => extractLoop monthIdx rest2 day
        else extractLoop monthIdx (next :: rest2) day  -- range check failed: i += 1
      | none => extractLoop monthIdx (next :: rest2) day  -- ValueError: i += 1
    else
      extractLoop monthIdx (next :: rest2) day  -- branch 3: skip noise

/-- `extract_from_column`: resolve merged tokens, then run the loop with
no current day.  (The geometric `(round(top), x0)` pre-sort happens before
the token stream exists and is not part of the token-stream semantics.) -/
def extract_from_column (ws : List String) (monthIdx : Nat) : List TideEntry :=
  (extractLoop monthIdx ((ws.map parse_merged_text).flatten) none).1

/-- Python string `<=` (lexicographic by code point) on char lists. -/
def chLe : List Char → List Char → Bool
  | [], _ => true
  | _ :: _, [] => false
  | a :: as, b :: bs =>
    if a.toNat < b.toNat then true
    else if b.toNat < a.toNat then false
    else chLe as bs

/-- Python string `<=`. -/
def strLe (a b : String) : Bool := chLe a.data b.data

/-- The sort key of `classify_tides`: the tuple `(x['date'], x['time'])`
under Python tuple order. -/
def tideKeyLe (a b : TideEntry) : Bool :=
  if a.date = b.date then strLe a.time b.time else strLe a.date b.date

/-- Stable insertion of `x` after every already-placed element `y` with
`le y x`. -/
def insertStable (le : α → α → Bool) (x : α) : List α → List α
  | [] => [x]
  | y :: ys => if le y x then y :: insertStable le x ys else x :: y :: ys

/-- Python's stable `list.sort` (for a total preorder every stable sort
returns the same list, so insertion sort is a faithful model). -/
def stableSort (le : α → α → Bool) (l : List α) : List α :=
  l.foldl (fun acc x => insertStable le x acc) []

/-- `tides.sort(key=lambda x: (x['date'], x['time']))`. -/
def sortTides (tides : List TideEntry) : List TideEntry := stableSort tideKeyLe tides

/-- `tides[i]['height']` (defaulting outside the list; only used in range). -/
def heightAt (s : List TideEntry) (i : Nat) : Dec :=
  ((s[i]?).map TideEntry.height).getD dec0

/-- `prev_h = tides[i-1]['height'] if i > 0 else tides[i]['height']`. -/
def prevH (s : List TideEntry) (i : Nat) : Dec :=
  if 0 < i then heightAt s (i - 1) else heightAt s i

/-- `next_h = tides[i+1]['height'] if i < len(tides)-1 else tides[i]['height']`. -/
def nextH (s : List TideEntry) (i : Nat) : Dec :=
  if i < s.length - 1 then heightAt s (i + 1) else heightAt s i

/-- The body of the classification loop for index `i`. -/
def typeOf (s : List TideEntry) (i : Nat) : String :=
  if Dec.lt (prevH s i) (heightAt s i) ∧ Dec.lt (nextH s i) (heightAt s i) then "high"
  else if Dec.lt (heightAt s i) (prevH s i) ∧ Dec.lt (heightAt s i) (nextH s i) then "low"
  else if Dec.lt dec0_8 (heightAt s i) then "high"
  else "low"

/-- `classify_tides`: sort by `(date, time)`, then mark each entry
high/low from its neighbours. -/
def classify_tides (tides : List TideEntry) : List TypedEntry :=
  let s := sortTides tides
  (List.range s.length).map (fun i =>
    let e := (s[i]?).getD default
    ⟨e.date, e.time, e.height, typeOf s i⟩)

/-- `key = f"{entry['date']}_{entry['time']}"`. -/
def keyOf (e : TideEntry) : String := e.date ++ "_" ++ e.time

/-- `unique_map[key] = entry` on an insertion-ordered dict. -/
def upsert (m : List (String × TideEntry)) (k : String) (v : TideEntry) :
    List (String × TideEntry) :=
  if m.any (fun p => p.1 == k) then
    m.map (fun p => if p.1 == k then (k, v) else p)
  else m ++ [(k, v)]

/-- The `unique_map` dict built by the deduplication loop in `main`. -/
def uniqueMap (raw : List TideEntry) : List (String × TideEntry) :=
  raw.foldl (fun m e => upsert m (keyOf e) e) []

/-- `clean_data = list(unique_map.values())`. -/
def dedupEntries (raw : List TideEntry) : List TideEntry :=
  (uniqueMap raw).map Prod.snd

/-- Insertion into the ordered key sequence of a Python dict. -/
def insertDate (ks : List String) (k : String) : List String :=
  if k ∈ ks then ks else ks ++ [k]

/-- The keys of `day_counts` in insertion order (first occurrence order),
also the distinct dates of the entry list. -/
def datesInOrder (tides : List TypedEntry) : List String :=
  tides.foldl (fun acc t => insertDate acc t.date) []

/-- `day_counts[d]`. -/
def countDate (tides : List TypedEntry) (d : String) : Nat :=
  tides.countP (fun t => t.date == d)

/-- `[d for d, c in day_counts.items() if c < 1 or c > 4]`. -/
def suspiciousDays (tides : List TypedEntry) : List String :=
  (datesInOrder tides).filter
    (fun d => decide (countDate tides d < 1) || decide (4 < countDate tides d))

/-- The `expected_set` of `validate_data`: every isoformat date of 2026
(the script builds it by `date` arithmetic; 2026 is not a leap year, so it
is exactly the days listed in `DAYS_IN_MONTH`). -/
def allDates2026 : List String :=
  (List.range 12).flatMap
    (fun mi => (List.range (DAYS_IN_MONTH.getD mi 0)).map (fun di => isoDate (mi + 1) (di + 1)))

/-- Python `repr` of a list of (quote-free) strings, as produced by the
f-strings in `validate_data`. -/
def pyReprStrList (l : List String) : String :=
  "[" ++ String.intercalate ", " (l.map (fun s => "'" ++ s ++ "'")) ++ "]"

/-- `validate_data`: collect human-readable issue strings. -/
def validate_data (tides : List TypedEntry) : List String :=
  let uniqueDays := stableSort strLe (datesInOrder tides)
  let issues1 : List String :=
    if uniqueDays.length ≠ 365 then
      let base := ["Day count mismatch: Found " ++ toString uniqueDays.length
        ++ ", expected 365"]
      let missing := stableSort strLe (allDates2026.filter (fun d => decide (d ∉ uniqueDays)))
      if missing ≠ [] then
        base ++ ["Missing dates: " ++ pyReprStrList (missing.take 5) ++ "..."]
      else base
    else []
  if suspiciousDays tides ≠ [] then
    issues1 ++ ["Suspicious tide counts (0 or >4) on "
      ++ toString (suspiciousDays tides).length ++ " days: "
      ++ pyReprStrList ((suspiciousDays tides).take 3) ++ "..."]
  else issues1

/-- The per-location data path of `main` after extraction: deduplicate,
classify, validate (the issues are only reported, the entry list written
to JSON is `clean_data` itself). -/
def mainTides (raw : List TideEntry) : List TypedEntry :=
  let clean := classify_tides (dedupEntries raw)
  let _issues := validate_data clean
  clean

/-- Boolean check that `p` is an initial segment of `s` (used to recognise
which issue string a `validate_data` message is). -/
def strStartsChars : List Char → List Char → Bool
  | [], _ => true
  | _ :: _, [] => false
  | a :: as, b :: bs => (a == b) && strStartsChars as bs

/-- `s.startswith(p)`. -/
def strStarts (p s : String) : Bool := strStartsChars p.data s.data

/-- The digit value of an ASCII digit character. -/
def charDigitVal (c : Char) : Nat := c.toNat - 48

/-- A well-formed 24-hour `HH:MM` string: two digits, a colon, two digits,
with `HH < 24` and `MM < 60` (the spec's data-model reading of `time`). -/
def isValidHHMM (s : String) : Bool :=
  match s.data with
  | [a, b, c, d, e] =>
    a.isDigit && b.isDigit && (c == ':') && d.isDigit && e.isDigit
      && decide (charDigitVal a * 10 + charDigitVal b < 24)
      && decide (charDigitVal d * 10 + charDigitVal e < 60)
  | _ => false

/-- The `HH:MM` shape the extractor actually guarantees: two digits, a
colon, two digits (no bound on the numeric values). -/
def timeShapeHHMM (s : String) : Bool :=
  match s.data with
  | [a, b, c, d, e] => a.isDigit && b.isDigit && (c == ':') && d.isDigit && e.isDigit
  | _ => false

/-- `s` is the isoformat of a valid calendar day of 2026. -/
def isValidDate2026 (s : String) : Prop :=
  ∃ m d, 1 ≤ m ∧ m ≤ 12 ∧ 1 ≤ d ∧ d ≤ DAYS_IN_MONTH.getD (m - 1) 0 ∧ s = isoDate m d

/-! ## Helper lemmas -/

/-- A 4-digit time token can never pass the day-token test (it is too
long), so a time token never advances `current_day`. -/
theorem time_not_day {t : String} (ht : isTimeToken t = true) : isDayToken t = false := by
  simp only [isTimeToken, Bool.and_eq_true, decide_eq_true_eq] at ht
  simp only [isDayToken, Bool.and_eq_false_iff]
  left; left; right
  simp [ht.1]

/-- A date accepted by `datetime.date(2026, monthIdx + 1, d)` is a valid
calendar day of 2026. -/
theorem isoDate_valid {mi d : Nat} (hv : validDay2026 mi d = true) :
    isValidDate2026 (isoDate (mi + 1) d) := by
  simp only [validDay2026, Bool.and_eq_true, decide_eq_true_eq] at hv
  exact ⟨mi + 1, d, by omega, by omega, hv.1.2, by simpa using hv.2, rfl⟩

/-- Formatting a 4-digit token as `HH:MM` yields two digits, a colon and
two digits. -/
theorem timeShape_fmtTime {t : String} (ht : isTimeToken t = true) :
    timeShapeHHMM (fmtTime t) = true := by
  obtain ⟨cs⟩ := t
  simp only [isTimeToken, Bool.and_eq_true, decide_eq_true_eq, String.length] at ht
  obtain ⟨hlen, hdig⟩ := ht
  rcases cs with _ | ⟨a, _ | ⟨b, _ | ⟨c, _ | ⟨d, _ | ⟨e, rest⟩⟩⟩⟩⟩ <;>
    simp_all [fmtTime, timeShapeHHMM, List.all_eq_true]

/-! ## Claims C8 and C9: the worked examples -/

/-- C8: the token stream `["5","MO","0612","0.15","1205","1.62"]` for
January (month index 0) produces exactly the two entries
`{date: "2026-01-05", time: "06:12", height: 0.15}` and
`{date: "2026-01-05", time: "12:05", height: 1.62}` in that order
(`⟨false, 15, 100⟩` is the decimal 0.15, `⟨false, 162, 100⟩` is 1.62). -/
theorem claim_C8 :
    extract_from_column ["5", "MO", "0612", "0.15", "1205", "1.62"] 0 =
      [⟨"2026-01-05", "06:12", ⟨false, 15, 100⟩⟩,
       ⟨"2026-01-05", "12:05", ⟨false, 162, 100⟩⟩] := by
  decide

/-- C9: the fused token `"TU1413"` splits into `["TU", "1413"]`, and a
stream in which it is followed by `"0.92"` (with a day in scope) yields an
entry with time `"14:13"` and height 0.92 (`⟨false, 92, 100⟩`). -/
theorem claim_C9 :
    parse_merged_text "TU1413" = ["TU", "1413"] ∧
    extract_from_column ["5", "TU1413", "0.92"] 0 =
      [⟨"2026-01-05", "14:13", ⟨false, 92, 100⟩⟩] := by
  constructor <;> decide

/-! ## Claim C3: the extraction invariant

The height and date parts hold, but the code never bounds the hour and
minute digits of a time token, so the `time` field need not be a valid
24-hour time: token `"9999"` followed by a valid height yields the entry
time `"99:99"`. -/

/-- C3 counterexample: the stream `["5","9999","0.15"]` produces exactly
one entry whose time `"99:99"` is not a well-formed 24-hour `HH:MM` time,
refuting the claim as stated. -/
theorem claim_C3_cex :
    (extract_from_column ["5", "9999", "0.15"] 0).map TideEntry.time = ["99:99"] ∧
    isValidHHMM "99:99" = false := by
  constructor <;> decide

/-- Every entry emitted by the extraction loop, from any day state, has a
height in `[0.0, 2.5]`, an isoformat date of a valid 2026 calendar day,
and a time of shape digit-digit-colon-digit-digit. -/
theorem extractLoop_entry_wf (m : Nat) :
    ∀ (ws : List String) (day : Option Nat), ∀ e ∈ (extractLoop m ws day).1,
      heightInRange e.height ∧ isValidDate2026 e.date ∧ timeShapeHHMM e.time = true := by
  intro ws day
  induction ws, day using extractLoop.induct m with
  | case1 day => simp [extractLoop]
  | case2 t day h1 => simp [extractLoop, h1]
  | case3 t day h1 => simp [extractLoop, h1]
  | case4 t next rest2 day h1 ih =>
    simpa [extractLoop, h1] using ih
  | case5 t next rest2 h1 h2 h hp hr d hv ih =>
    intro e he
    simp only [extractLoop, h1, h2, hp, hr, hv, if_true, if_false, Bool.false_eq_true,
      if_pos, List.mem_cons] at he
    rcases he with rfl | he
    · exact ⟨hr, isoDate_valid hv, timeShape_fmtTime h2⟩
    · exact ih e he
  | case6 t next rest2 h1 h2 h hp hr d hv ih =>
    intro e he
    simp only [extractLoop, h1, h2, hp, hr, hv, Bool.false_eq_true, if_false] at he
    exact ih e he
  | case7 t next rest2 h1 h2 h hp hr ih =>
    intro e he
    simp only [extractLoop, h1, h2, hp, hr] at he
    exact ih e he
  | case8 t next rest2 day h1 h2 h hp hr ih =>
    intro e he
    simp only [extractLoop, h1, h2, hp, hr] at he
    exact ih e he
  | case9 t next rest2 day h1 h2 hp ih =>
    intro e he
    simp only [extractLoop, h1, h2, hp] at he
    exact ih e he
  | case10 t next rest2 day h1 h2 ih =>
    intro e he
    simp only [extractLoop, h1, h2] at he
    exact ih e he

/-- C3 (amended): every `TideEntry` produced by extraction has a height
within `[0.0, 2.5]` metres and a date that is a valid calendar day of
2026; its time field has the shape `DD:DD` (two digits, a colon, two
digits) but the hour and minute values are NOT validated, so the time need
not be a well-formed 24-hour clock reading. -/
theorem claim_C3 (ws : List String) (m : Nat) (e : TideEntry)
    (he : e ∈ extract_from_column ws m) :
    heightInRange e.height ∧ isValidDate2026 e.date ∧ timeShapeHHMM e.time = true :=
  extractLoop_entry_wf m ((ws.map parse_merged_text).flatten) none e he

/-- Witness for C3 (amended) at the concrete stream `["5","0612","0.15"]`. -/
theorem claim_C3_wit :
    heightInRange (⟨false, 15, 100⟩ : Dec) ∧ isValidDate2026 "2026-01-05" ∧
      timeShapeHHMM "06:12" = true :=
  claim_C3 ["5", "0612", "0.15"] 0 ⟨"2026-01-05", "06:12", ⟨false, 15, 100⟩⟩ (by decide)

/-! ## Claim C1: entries are produced only from a time token with a valid
trailing height and a previously set day -/

/-- Structure of every emitted entry, from an arbitrary day state: it
comes from a time token at some position `i` whose immediate successor
parses as a decimal in `[0.0, 2.5]`, and either some strictly earlier
token is a day token or the loop started with a day already set. -/
theorem extractLoop_mem_structure (m : Nat) :
    ∀ (tokens : List String) (day : Option Nat), ∀ e ∈ (extractLoop m tokens day).1,
      ∃ i t u h, tokens[i]? = some t ∧ tokens[i + 1]? = some u ∧
        isTimeToken t = true ∧ e.time = fmtTime t ∧
        parseFloat u = some h ∧ heightInRange h ∧ e.height = h ∧
        ((∃ j dt, j < i ∧ tokens[j]? = some dt ∧ isDayToken dt = true) ∨ day ≠ none) := by
  intro tokens day
  induction tokens, day using extractLoop.induct m with
  | case1 day => simp [extractLoop]
  | case2 t day h1 => simp [extractLoop, h1]
  | case3 t day h1 => simp [extractLoop, h1]
  | case4 t next rest2 day h1 ih =>
    intro e he
    simp only [extractLoop, h1, if_true] at he
    obtain ⟨i, t1, u, h, hg1, hg2, htt, het, hpu, hhr, heh, _⟩ := ih e he
    exact ⟨i + 1, t1, u, h, by simpa using hg1, by simpa using hg2, htt, het, hpu, hhr, heh,
      Or.inl ⟨0, t, by omega, rfl, h1⟩⟩
  | case5 t next rest2 h1 h2 h hp hr d hv ih =>
    intro e he
    simp only [extractLoop, h1, h2, hp, hr, hv, Bool.false_eq_true, if_false, if_true,
      if_pos, List.mem_cons] at he
    rcases he with rfl | he
    · exact ⟨0, t, next, h, rfl, by simp, h2, rfl, hp, hr, rfl, Or.inr (by simp)⟩
    · obtain ⟨i, t1, u, h1x, hg1, hg2, htt, het, hpu, hhr, heh, _⟩ := ih e he
      exact ⟨i + 2, t1, u, h1x, by simpa using hg1, by simpa using hg2, htt, het, hpu, hhr,
        heh, Or.inr (by simp)⟩
  | case6 t next rest2 h1 h2 h hp hr d hv ih =>
    intro e he
    simp only [extractLoop, h1, h2, hp, hr, hv, Bool.false_eq_true, if_false] at he
    obtain ⟨i, t1, u, h1x, hg1, hg2, htt, het, hpu, hhr, heh, _⟩ := ih e he
    exact ⟨i + 2, t1, u, h1x, by simpa using hg1, by simpa using hg2, htt, het, hpu, hhr,
      heh, Or.inr (by simp)⟩
  | case7 t next rest2 h1 h2 h hp hr ih =>
    intro e he
    simp only [extractLoop, h1, h2, hp, hr] at he
    obtain ⟨i, t1, u, h1x, hg1, hg2, htt, het, hpu, hhr, heh, hday⟩ := ih e he
    rcases hday with ⟨j, dt, hj, hg, hd⟩ | hno
    · exact ⟨i + 2, t1, u, h1x, by simpa using hg1, by simpa using hg2, htt, het, hpu, hhr,
        heh, Or.inl ⟨j + 2, dt, by omega, by simpa using hg, hd⟩⟩
    · exact absurd rfl hno
  | case8 t next rest2 day h1 h2 h hp hr ih =>
    intro e he
    simp only [extractLoop, h1, h2, hp, hr] at he
    obtain ⟨i, t1, u, h1x, hg1, hg2, htt, het, hpu, hhr, heh, hday⟩ := ih e he
    refine ⟨i + 1, t1, u, h1x, by simpa using hg1, by simpa using hg2, htt, het, hpu, hhr,
      heh, ?_⟩
    rcases hday with ⟨j, dt, hj, hg, hd⟩ | hno
    · exact Or.inl ⟨j + 1, dt, by omega, by simpa using hg, hd⟩
    · exact Or.inr hno
  | case9 t next rest2 day h1 h2 hp ih =>
    intro e he
    simp only [extractLoop, h1, h2, hp] at he
    obtain ⟨i, t1, u, h1x, hg1, hg2, htt, het, hpu, hhr, heh, hday⟩ := ih e he
    refine ⟨i + 1, t1, u, h1x, by simpa using hg1, by simpa using hg2, htt, het, hpu, hhr,
      heh, ?_⟩
    rcases hday with ⟨j, dt, hj, hg, hd⟩ | hno
    · exact Or.inl ⟨j + 1, dt, by omega, by simpa using hg, hd⟩
    · exact Or.inr hno
  | case10 t next rest2 day h1 h2 ih =>
    intro e he
    simp only [extractLoop, h1, h2] at he
    obtain ⟨i, t1, u, h1x, hg1, hg2, htt, het, hpu, hhr, heh, hday⟩ := ih e he
    refine ⟨i + 1, t1, u, h1x, by simpa using hg1, by simpa using hg2, htt, het, hpu, hhr,
      heh, ?_⟩
    rcases hday with ⟨j, dt, hj, hg, hd⟩ | hno
    · exact Or.inl ⟨j + 1, dt, by omega, by simpa using hg, hd⟩
    · exact Or.inr hno

/-- C1: for every token stream of a column (processing starts with no
current day), every emitted entry comes from a 4-digit time token whose
immediately following token parses as a decimal in `[0.0, 2.5]`, and some
strictly earlier token of the stream is a bare 1-2 digit day token in
`[1, 31]`; when either condition fails for a time token no entry carrying
it is produced. -/
theorem claim_C1 (m : Nat) (tokens : List String) (e : TideEntry)
    (he : e ∈ (extractLoop m tokens none).1) :
    ∃ i t u h, tokens[i]? = some t ∧ tokens[i + 1]? = some u ∧
      isTimeToken t = true ∧ e.time = fmtTime t ∧
      parseFloat u = some h ∧ heightInRange h ∧ e.height = h ∧
      ∃ j dt, j < i ∧ tokens[j]? = some dt ∧ isDayToken dt = true := by
  obtain ⟨i, t, u, h, hg1, hg2, htt, het, hpu, hhr, heh, hday⟩ :=
    extractLoop_mem_structure m tokens none e he
  rcases hday with hd | hno
  · exact ⟨i, t, u, h, hg1, hg2, htt, het, hpu, hhr, heh, hd⟩
  · exact absurd rfl hno

/-- Witness for C1 at the stream `["5","0612","0.15"]`. -/
theorem claim_C1_wit :
    ∃ i t u h, (["5", "0612", "0.15"] : List String)[i]? = some t ∧
      (["5", "0612", "0.15"] : List String)[i + 1]? = some u ∧
      isTimeToken t = true ∧ ("06:12" : String) = fmtTime t ∧
      parseFloat u = some h ∧ heightInRange h ∧ (⟨false, 15, 100⟩ : Dec) = h ∧
      ∃ j dt, j < i ∧ (["5", "0612", "0.15"] : List String)[j]? = some dt ∧
        isDayToken dt = true :=
  claim_C1 0 ["5", "0612", "0.15"] ⟨"2026-01-05", "06:12", ⟨false, 15, 100⟩⟩ (by decide)

/-! ## Claim C2: malformed heights are never consumed; the day only
advances at day tokens -/

/-- Without any day token in the stream, the `current_day` state is
unchanged by the whole run of the loop. -/
theorem extractLoop_day_const (m : Nat) :
    ∀ (tokens : List String) (day : Option Nat),
      (∀ x ∈ tokens, isDayToken x = false) → (extractLoop m tokens day).2 = day := by
  intro tokens day
  induction tokens, day using extractLoop.induct m with
  | case1 day => simp [extractLoop]
  | case2 t day h1 => intro hall; simp [hall t (by simp)] at h1
  | case3 t day h1 => intro hall; simp [extractLoop, h1]
  | case4 t next rest2 day h1 ih => intro hall; simp [hall t (by simp)] at h1
  | case5 t next rest2 h1 h2 h hp hr d hv ih =>
    intro hall
    simp only [extractLoop, h1, h2, hp, hr, hv, Bool.false_eq_true, if_false, if_true, if_pos]
    exact ih fun x hx => hall x (by simp [hx])
  | case6 t next rest2 h1 h2 h hp hr d hv ih =>
    intro hall
    simp only [extractLoop, h1, h2, hp, hr, hv, Bool.false_eq_true, if_false]
    exact ih fun x hx => hall x (by simp [hx])
  | case7 t next rest2 h1 h2 h hp hr ih =>
    intro hall
    simp only [extractLoop, h1, h2, hp, hr]
    exact ih fun x hx => hall x (by simp [hx])
  | case8 t next rest2 day h1 h2 h hp hr ih =>
    intro hall
    simp only [extractLoop, h1, h2, hp, hr]
    exact ih fun x hx => hall x (by simp [hx])
  | case9 t next rest2 day h1 h2 hp ih =>
    intro hall
    simp only [extractLoop, h1, h2, hp]
    exact ih fun x hx => hall x (by simp [hx])
  | case10 t next rest2 day h1 h2 ih =>
    intro hall
    simp only [extractLoop, h1, h2]
    exact ih fun x hx => hall x (by simp [hx])

/-- C2: (a) when a 4-digit time token `t` is followed by a token `u` that
is itself a 4-digit token failing the height test (`float` value outside
`[0.0, 2.5]`), `u` is never consumed as the height of `t`: the run
continues exactly as if it had started at `u` (in particular `u` is
re-examined as a time token of its own); (b) the current day never
changes except at a bare 1-2 digit day token in `[1, 31]`: a run over a
stream with no day token ends with the day state it began with. -/
theorem claim_C2 (m : Nat) (day : Option Nat) :
    (∀ t u rest, isTimeToken t = true → isTimeToken u = true → heightOk u = false →
      extractLoop m (t :: u :: rest) day = extractLoop m (u :: rest) day) ∧
    (∀ tokens, (∀ x ∈ tokens, isDayToken x = false) →
      (extractLoop m tokens day).2 = day) := by
  constructor
  · intro t u rest ht hu hbad
    have hnd : isDayToken t = false := time_not_day ht
    cases hp : parseFloat u with
    | none => simp [extractLoop, hnd, ht, hp]
    | some h =>
      have hnr : ¬ heightInRange h := by
        simpa [heightOk, hp] using hbad
      simp [extractLoop, hnd, ht, hp, hnr]
  · exact fun tokens => extractLoop_day_const m tokens day

/-- Witness for C2: `"9999"` is a 4-digit token whose float value 9999.0
is outside `[0.0, 2.5]`, so after the time token `"1205"` it is not
consumed; and a day-token-free stream leaves the day state `none`. -/
theorem claim_C2_wit :
    extractLoop 0 ["1205", "9999"] none = extractLoop 0 ["9999"] none ∧
    (extractLoop 0 ["MO", "0612", "0.95"] none).2 = none :=
  ⟨(claim_C2 0 none).1 "1205" "9999" [] (by decide) (by decide) (by decide),
   (claim_C2 0 none).2 ["MO", "0612", "0.95"] (by decide)⟩

/-! ## Claims C6 and C7: deduplication by `(date, time)` key -/

/-- A key occurs in the dict iff some stored pair carries it. -/
theorem any_key_iff (m : List (String × TideEntry)) (k : String) :
    m.any (fun p => p.1 == k) = true ↔ k ∈ m.map Prod.fst := by
  rw [List.any_eq_true]
  constructor
  · rintro ⟨p, hp, hpk⟩
    exact (eq_of_beq hpk) ▸ List.mem_map_of_mem Prod.fst hp
  · intro hk
    obtain ⟨p, hp, rfl⟩ := List.mem_map.mp hk
    exact ⟨p, hp, by simp⟩

/-- `upsert` rewrites an existing key in place (keys unchanged) or
appends a fresh key at the end. -/
theorem upsert_keys (m : List (String × TideEntry)) (k : String) (v : TideEntry) :
    (upsert m k v).map Prod.fst =
      if m.any (fun p => p.1 == k) then m.map Prod.fst else m.map Prod.fst ++ [k] := by
  unfold upsert
  by_cases hany : m.any (fun p => p.1 == k) = true
  · simp only [hany, if_true]
    rw [List.map_map]
    apply List.map_congr_left
    intro p _
    by_cases hpk : p.1 == k
    · simp [hpk, (eq_of_beq hpk).symm]
    · have hne : ¬ p.1 = k := by simpa using hpk
      simp [hne]
  · simp [hany]

/-- Dict keys are pairwise distinct. -/
theorem foldl_upsert_keys_nodup (l : List TideEntry) :
    ∀ m, ((m.map Prod.fst).Nodup) →
      ((l.foldl (fun m e => upsert m (keyOf e) e) m).map Prod.fst).Nodup := by
  induction l with
  | nil => intro m h; simpa using h
  | cons e l ih =>
    intro m h
    simp only [List.foldl_cons]
    apply ih
    rw [upsert_keys]
    by_cases hany : m.any (fun p => p.1 == keyOf e) = true
    · simpa [hany] using h
    · have hk : keyOf e ∉ m.map Prod.fst := fun hc => hany ((any_key_iff m (keyOf e)).mpr hc)
      simp only [hany, if_false, Bool.false_eq_true]
      refine h.append (List.nodup_singleton _) ?_
      intro a ha hb
      rw [List.mem_singleton] at hb
      exact hk (hb ▸ ha)

/-- Every stored pair carries the key of its value. -/
theorem foldl_upsert_fst (l : List TideEntry) :
    ∀ m, (∀ p ∈ m, p.1 = keyOf p.2) →
      ∀ p ∈ l.foldl (fun m e => upsert m (keyOf e) e) m, p.1 = keyOf p.2 := by
  induction l with
  | nil => intro m h; simpa using h
  | cons e l ih =>
    intro m h
    simp only [List.foldl_cons]
    apply ih
    intro p hp
    unfold upsert at hp
    by_cases hany : m.any (fun q => q.1 == keyOf e) = true
    · simp only [hany, if_true, List.mem_map] at hp
      obtain ⟨q, hq, rfl⟩ := hp
      by_cases hqk : q.1 == keyOf e
      · simp [hqk]
      · simpa [hqk] using h q hq
    · simp only [hany, if_false, Bool.false_eq_true, List.mem_append, List.mem_singleton] at hp
      rcases hp with hp | rfl
      · exact h p hp
      · rfl

/-- The value stored under a key is the last entry of the input bearing
that key. -/
theorem uniqueMap_last (raw : List TideEntry) :
    ∀ p ∈ uniqueMap raw, (raw.filter (fun x => keyOf x == p.1)).getLast? = some p.2 := by
  induction raw using List.reverseRecOn with
  | nil => intro p hp; simp [uniqueMap] at hp
  | append_singleton raw e ih =>
    intro p hp
    rw [show uniqueMap (raw ++ [e]) = upsert (uniqueMap raw) (keyOf e) e by
      simp [uniqueMap, List.foldl_append]] at hp
    unfold upsert at hp
    by_cases hany : (uniqueMap raw).any (fun q => q.1 == keyOf e) = true
    · simp only [hany, if_true, List.mem_map] at hp
      obtain ⟨q, hq, rfl⟩ := hp
      by_cases hqk : q.1 == keyOf e
      · simp only [hqk, if_true]
        rw [List.filter_append]
        have h1 : List.filter (fun x => keyOf x == keyOf e) [e] = [e] := by simp
        rw [h1]
        exact List.getLast?_concat (List.filter (fun x => keyOf x == keyOf e) raw)
      · simp only [hqk, if_false, Bool.false_eq_true]
        have hqe : ¬ (q.1 = keyOf e) := by simpa using hqk
        have hfe : (keyOf e == q.1) = false := by
          rw [beq_eq_false_iff_ne]
          exact fun hc => hqe hc.symm
        rw [List.filter_append]
        have h1 : List.filter (fun x => keyOf x == q.1) [e] = [] := by simp [hfe]
        rw [h1, List.append_nil]
        exact ih q hq
    · simp only [hany, if_false, Bool.false_eq_true, List.mem_append,
        List.mem_singleton] at hp
      rcases hp with hp | rfl
      · have hne : p.1 ≠ keyOf e := by
          intro hc
          exact hany ((any_key_iff _ _).mpr (hc ▸ List.mem_map_of_mem Prod.fst hp))
        have hfe : (keyOf e == p.1) = false := by
          rw [beq_eq_false_iff_ne]
          exact fun hc => hne hc.symm
        rw [List.filter_append]
        have h1 : List.filter (fun x => keyOf x == p.1) [e] = [] := by simp [hfe]
        rw [h1, List.append_nil]
        exact ih p hp
      · rw [List.filter_append]
        have h1 : List.filter (fun x => keyOf x == keyOf e) [e] = [e] := by simp
        rw [h1]
        exact List.getLast?_concat (List.filter (fun x => keyOf x == keyOf e) raw)

/-- A key occurs in the dict iff some input entry bears it. -/
theorem uniqueMap_keys_iff (raw : List TideEntry) (k : String) :
    k ∈ (uniqueMap raw).map Prod.fst ↔ ∃ e ∈ raw, keyOf e = k := by
  induction raw using List.reverseRecOn with
  | nil => simp [uniqueMap]
  | append_singleton raw e ih =>
    rw [show uniqueMap (raw ++ [e]) = upsert (uniqueMap raw) (keyOf e) e by
      simp [uniqueMap, List.foldl_append]]
    rw [upsert_keys]
    by_cases hany : (uniqueMap raw).any (fun q => q.1 == keyOf e) = true
    · simp only [hany, if_true]
      rw [ih]
      constructor
      · rintro ⟨x, hx, rfl⟩; exact ⟨x, by simp [hx], rfl⟩
      · rintro ⟨x, hx, rfl⟩
        rcases List.mem_append.mp hx with hx | hx
        · exact ⟨x, hx, rfl⟩
        · obtain rfl : x = e := by simpa using hx
          have := (any_key_iff _ _).mp hany
          rw [ih] at this
          exact this
    · simp only [hany, if_false, Bool.false_eq_true, List.mem_append, List.mem_singleton, ih]
      constructor
      · rintro (⟨x, hx, rfl⟩ | rfl)
        · exact ⟨x, Or.inl hx, rfl⟩
        · exact ⟨e, Or.inr rfl, rfl⟩
      · rintro ⟨x, hx | rfl, rfl⟩
        · exact Or.inl ⟨x, hx, rfl⟩
        · exact Or.inr rfl

/-- The keys of the deduplicated output, computed from its own entries,
are exactly the dict keys. -/
theorem dedup_map_keyOf (raw : List TideEntry) :
    (dedupEntries raw).map keyOf = (uniqueMap raw).map Prod.fst := by
  unfold dedupEntries
  rw [List.map_map]
  apply List.map_congr_left
  intro p hp
  exact (foldl_upsert_fst raw [] (by simp) p hp).symm

/-- Feeding entries with pairwise distinct keys into the dict appends
them all in order. -/
theorem foldl_upsert_of_fresh (l : List TideEntry) :
    ∀ m, (∀ e ∈ l, keyOf e ∉ m.map Prod.fst) → ((l.map keyOf).Nodup) →
      l.foldl (fun m e => upsert m (keyOf e) e) m = m ++ l.map (fun e => (keyOf e, e)) := by
  induction l with
  | nil => simp
  | cons e l ih =>
    intro m hfresh hnd
    simp only [List.foldl_cons]
    have hne : ¬ (m.any (fun p => p.1 == keyOf e) = true) := by
      rw [any_key_iff]
      exact hfresh e (by simp)
    rw [show upsert m (keyOf e) e = m ++ [(keyOf e, e)] by unfold upsert; rw [if_neg hne]]
    rw [ih (m ++ [(keyOf e, e)])]
    · simp
    · intro x hx
      simp only [List.map_append, List.mem_append, List.map_cons, List.map_nil,
        List.mem_singleton, not_or]
      refine ⟨hfresh x (by simp [hx]), ?_⟩
      have hnd2 : (keyOf e :: l.map keyOf).Nodup := by rw [← List.map_cons]; exact hnd
      have hni : keyOf e ∉ l.map keyOf := (List.nodup_cons.mp hnd2).1
      exact fun hc => hni (hc ▸ List.mem_map_of_mem keyOf hx)
    · have hnd2 : (keyOf e :: l.map keyOf).Nodup := by rw [← List.map_cons]; exact hnd
      exact (List.nodup_cons.mp hnd2).2

/-- C6: deduplication by `(date, time)` key is idempotent: deduplicating
an already-deduplicated entry list returns it unchanged, in order. -/
theorem claim_C6 (raw : List TideEntry) :
    dedupEntries (dedupEntries raw) = dedupEntries raw := by
  have hkeys : ((dedupEntries raw).map keyOf).Nodup := by
    rw [dedup_map_keyOf]
    exact foldl_upsert_keys_nodup raw [] (by simp)
  have h2 : uniqueMap (dedupEntries raw) =
      (dedupEntries raw).map (fun e => (keyOf e, e)) := by
    unfold uniqueMap
    rw [foldl_upsert_of_fresh _ [] (by simp) hkeys]
    simp
  calc dedupEntries (dedupEntries raw)
      = (uniqueMap (dedupEntries raw)).map Prod.snd := rfl
    _ = ((dedupEntries raw).map (fun e => (keyOf e, e))).map Prod.snd := by rw [h2]
    _ = dedupEntries raw := by
        rw [List.map_map]
        have hcomp : (Prod.snd ∘ fun e : TideEntry => (keyOf e, e)) = id := rfl
        rw [hcomp, List.map_id]

/-- C7: deduplication keeps exactly one entry per `(date, time)` key;
each kept entry is the last input entry bearing its key (last write
wins), and a key occurs in the output iff it occurs in the input (so an
entry whose key is unique is preserved unchanged). -/
theorem claim_C7 (raw : List TideEntry) :
    ((dedupEntries raw).map keyOf).Nodup ∧
    (∀ e ∈ dedupEntries raw,
      (raw.filter (fun x => keyOf x == keyOf e)).getLast? = some e) ∧
    (∀ k, (∃ e ∈ raw, keyOf e = k) ↔ ∃ e ∈ dedupEntries raw, keyOf e = k) := by
  refine ⟨?_, ?_, ?_⟩
  · rw [dedup_map_keyOf]
    exact foldl_upsert_keys_nodup raw [] (by simp)
  · intro e he
    obtain ⟨p, hp, rfl⟩ := List.mem_map.mp he
    have hfst : p.1 = keyOf p.2 := foldl_upsert_fst raw [] (by simp) p hp
    have := uniqueMap_last raw p hp
    rwa [hfst] at this
  · intro k
    rw [← uniqueMap_keys_iff]
    constructor
    · intro hk
      obtain ⟨p, hp, rfl⟩ := List.mem_map.mp hk
      exact ⟨p.2, List.mem_map_of_mem Prod.snd hp,
        (foldl_upsert_fst raw [] (by simp) p hp).symm⟩
    · rintro ⟨e, he, rfl⟩
      obtain ⟨p, hp, rfl⟩ := List.mem_map.mp he
      rw [← foldl_upsert_fst raw [] (by simp) p hp]
      exact List.mem_map_of_mem Prod.fst hp

/-- Witness for C7 at a concrete input with a key collision: the key
`2026-01-05_06:12` occurs twice and the later entry (height 0.99) wins,
while keys stay pairwise distinct. -/
theorem claim_C7_wit :
    (([⟨"2026-01-05", "06:12", ⟨false, 15, 100⟩⟩,
       ⟨"2026-01-06", "06:12", ⟨false, 20, 100⟩⟩,
       ⟨"2026-01-05", "06:12", ⟨false, 99, 100⟩⟩] : List TideEntry).filter
        (fun x => keyOf x == keyOf (⟨"2026-01-05", "06:12", ⟨false, 99, 100⟩⟩ :
          TideEntry))).getLast? = some ⟨"2026-01-05", "06:12", ⟨false, 99, 100⟩⟩ ∧
    ((dedupEntries [⟨"2026-01-05", "06:12", ⟨false, 15, 100⟩⟩,
       ⟨"2026-01-06", "06:12", ⟨false, 20, 100⟩⟩,
       ⟨"2026-01-05", "06:12", ⟨false, 99, 100⟩⟩]).map keyOf).Nodup :=
  ⟨(claim_C7 _).2.1 ⟨"2026-01-05", "06:12", ⟨false, 99, 100⟩⟩ (by decide),
   (claim_C7 _).1⟩

/-! ## Claim C4: high/low classification -/

/-- Element access into the classified list. -/
theorem classify_tides_get (tides : List TideEntry) (i : Nat)
    (hi : i < (sortTides tides).length) :
    (classify_tides tides)[i]? =
      some ⟨(((sortTides tides)[i]?).getD default).date,
            (((sortTides tides)[i]?).getD default).time,
            (((sortTides tides)[i]?).getD default).height,
            typeOf (sortTides tides) i⟩ := by
  unfold classify_tides
  simp [List.getElem?_map, List.getElem?_range hi]

/-- The classification body only ever returns `"high"` or `"low"`. -/
theorem typeOf_high_or_low (s : List TideEntry) (i : Nat) :
    typeOf s i = "high" ∨ typeOf s i = "low" := by
  unfold typeOf
  by_cases h1 : Dec.lt (prevH s i) (heightAt s i) ∧ Dec.lt (nextH s i) (heightAt s i)
  · simp [h1]
  · by_cases h2 : Dec.lt (heightAt s i) (prevH s i) ∧ Dec.lt (heightAt s i) (nextH s i)
    · simp [h1, h2]
    · by_cases h3 : Dec.lt dec0_8 (heightAt s i)
      · simp [h1, h2, h3]
      · simp [h1, h2, h3]

/-- C4: every classified entry gets type `"high"` or `"low"`; in
`(date, time)`-sorted order, a strict local maximum among three
consecutive entries is `"high"` and a strict local minimum is `"low"`;
every other position (plateaus, and the first/last entries, whose missing
neighbour is the entry itself) falls back to the 0.8 threshold: `"high"`
iff the height exceeds 0.8, else `"low"`. -/
theorem claim_C4 (tides : List TideEntry) :
    (∀ e ∈ classify_tides tides, e.type = "high" ∨ e.type = "low") ∧
    (∀ i, 0 < i → i + 1 < (sortTides tides).length →
      Dec.lt (heightAt (sortTides tides) (i - 1)) (heightAt (sortTides tides) i) →
      Dec.lt (heightAt (sortTides tides) (i + 1)) (heightAt (sortTides tides) i) →
      ((classify_tides tides)[i]?).map TypedEntry.type = some "high") ∧
    (∀ i, 0 < i → i + 1 < (sortTides tides).length →
      Dec.lt (heightAt (sortTides tides) i) (heightAt (sortTides tides) (i - 1)) →
      Dec.lt (heightAt (sortTides tides) i) (heightAt (sortTides tides) (i + 1)) →
      ((classify_tides tides)[i]?).map TypedEntry.type = some "low") ∧
    (∀ i, i < (sortTides tides).length →
      ¬(Dec.lt (prevH (sortTides tides) i) (heightAt (sortTides tides) i) ∧
        Dec.lt (nextH (sortTides tides) i) (heightAt (sortTides tides) i)) →
      ¬(Dec.lt (heightAt (sortTides tides) i) (prevH (sortTides tides) i) ∧
        Dec.lt (heightAt (sortTides tides) i) (nextH (sortTides tides) i)) →
      ((classify_tides tides)[i]?).map TypedEntry.type =
        some (if Dec.lt dec0_8 (heightAt (sortTides tides) i) then "high" else "low")) := by
  refine ⟨?_, ?_, ?_, ?_⟩
  · intro e he
    unfold classify_tides at he
    simp only [List.mem_map, List.mem_range] at he
    obtain ⟨i, _, rfl⟩ := he
    exact typeOf_high_or_low (sortTides tides) i
  · intro i hpos hlt hp hn
    rw [classify_tides_get tides i (by omega)]
    have hprev : prevH (sortTides tides) i = heightAt (sortTides tides) (i - 1) :=
      if_pos hpos
    have hnext : nextH (sortTides tides) i = heightAt (sortTides tides) (i + 1) :=
      if_pos (by omega)
    simp only [Option.map_some']
    unfold typeOf
    rw [hprev, hnext, if_pos ⟨hp, hn⟩]
  · intro i hpos hlt hp hn
    rw [classify_tides_get tides i (by omega)]
    have hprev : prevH (sortTides tides) i = heightAt (sortTides tides) (i - 1) :=
      if_pos hpos
    have hnext : nextH (sortTides tides) i = heightAt (sortTides tides) (i + 1) :=
      if_pos (by omega)
    simp only [Option.map_some']
    unfold typeOf
    rw [hprev, hnext]
    rw [if_neg, if_pos ⟨hp, hn⟩]
    rintro ⟨hc1, hc2⟩
    exact absurd hp (by unfold Dec.lt at hc1 ⊢; omega)
  · intro i hi hnmax hnmin
    rw [classify_tides_get tides i hi]
    simp only [Option.map_some']
    unfold typeOf
    rw [if_neg hnmax, if_neg hnmin]

/-- Witness for C4 at the concrete sorted list with heights
1.0, 2.0, 0.5: the middle entry is a strict maximum (`"high"`), the last
is a boundary entry below the 0.8 threshold (`"low"`). -/
theorem claim_C4_wit :
    ((classify_tides
      [⟨"2026-01-05", "01:00", ⟨false, 10, 10⟩⟩,
       ⟨"2026-01-05", "08:00", ⟨false, 20, 10⟩⟩,
       ⟨"2026-01-05", "15:00", ⟨false, 5, 10⟩⟩])[1]?).map TypedEntry.type = some "high" ∧
    ((classify_tides
      [⟨"2026-01-05", "01:00", ⟨false, 10, 10⟩⟩,
       ⟨"2026-01-05", "08:00", ⟨false, 20, 10⟩⟩,
       ⟨"2026-01-05", "15:00", ⟨false, 5, 10⟩⟩])[2]?).map TypedEntry.type = some "low" :=
  ⟨(claim_C4 _).2.1 1 (by decide) (by decide) (by decide) (by decide),
   by
    have h := (claim_C4
      [⟨"2026-01-05", "01:00", ⟨false, 10, 10⟩⟩,
       ⟨"2026-01-05", "08:00", ⟨false, 20, 10⟩⟩,
       ⟨"2026-01-05", "15:00", ⟨false, 5, 10⟩⟩]).2.2.2 2 (by decide) (by decide) (by decide)
    simpa using h⟩

/-! ## Claims C5 and C10: validation -/

/-- Stable insertion grows the list by one. -/
theorem insertStable_length {α : Type} (le : α → α → Bool) (x : α) :
    ∀ l, (insertStable le x l).length = l.length + 1 := by
  intro l
  induction l with
  | nil => rfl
  | cons y ys ih =>
    unfold insertStable
    by_cases h : le y x = true
    · simp [h, ih]
    · simp [h]

/-- Sorting preserves length (so the sorted distinct-date list counts the
distinct dates). -/
theorem stableSort_length {α : Type} (le : α → α → Bool) (l : List α) :
    (stableSort le l).length = l.length := by
  suffices h : ∀ (l : List α) (acc : List α),
      (l.foldl (fun acc x => insertStable le x acc) acc).length = acc.length + l.length by
    simpa [stableSort] using h l []
  intro l
  induction l with
  | nil => intro acc; simp
  | cons x xs ih =>
    intro acc
    simp only [List.foldl_cons, List.length_cons]
    rw [ih, insertStable_length]
    omega

/-- A prefix check only looks at the first `p.length` characters. -/
theorem strStartsChars_append (p a b : List Char) (h : p.length ≤ a.length) :
    strStartsChars p (a ++ b) = strStartsChars p a := by
  induction p generalizing a with
  | nil => simp [strStartsChars]
  | cons c cs ih =>
    cases a with
    | nil => simp at h
    | cons d ds =>
      simp only [List.cons_append, strStartsChars, List.append_eq]
      rw [ih ds (by simpa using h)]

/-- When the distinct-day count is off, the day-count message is reported
(whatever the other checks add). -/
theorem dayMsg_mem (tides : List TypedEntry)
    (hne : (stableSort strLe (datesInOrder tides)).length ≠ 365) :
    ("Day count mismatch: Found " ++ toString (stableSort strLe (datesInOrder tides)).length
      ++ ", expected 365") ∈ validate_data tides := by
  simp only [validate_data]
  repeat' split
  all_goals simp_all

/-- When the distinct-day count is exactly 365, no reported issue starts
with `"Day count mismatch"`. -/
theorem noDayMsg (tides : List TypedEntry)
    (heq : (stableSort strLe (datesInOrder tides)).length = 365) :
    ∀ s ∈ validate_data tides, strStarts "Day count mismatch" s = false := by
  intro s hs
  simp only [validate_data] at hs
  rw [if_neg (not_not_intro heq)] at hs
  by_cases hsp : suspiciousDays tides ≠ []
  · rw [if_pos hsp] at hs
    rw [List.nil_append, List.mem_singleton] at hs
    subst hs
    unfold strStarts
    simp only [String.data_append, List.append_assoc]
    rw [strStartsChars_append "Day count mismatch".data
      "Suspicious tide counts (0 or >4) on ".data _ (by decide)]
    decide
  · rw [if_neg hsp] at hs
    simp at hs

/-- C5: `validate_data` reports an issue starting with
`"Day count mismatch"` iff the number of distinct dates differs from 365;
and the validation step never changes the entry list flowing to the JSON
output (`main` writes `clean_data` itself, validation only produces the
issue strings). -/
theorem claim_C5 :
    (∀ tides : List TypedEntry,
      ((∃ s ∈ validate_data tides, strStarts "Day count mismatch" s = true) ↔
        (datesInOrder tides).length ≠ 365)) ∧
    (∀ raw : List TideEntry, mainTides raw = classify_tides (dedupEntries raw)) := by
  constructor
  · intro tides
    have hlen := stableSort_length strLe (datesInOrder tides)
    constructor
    · rintro ⟨s, hs, hpre⟩
      by_contra h365
      have hf := noDayMsg tides (by rw [hlen]; exact h365) s hs
      rw [hf] at hpre
      exact Bool.false_ne_true hpre
    · intro hne
      refine ⟨_, dayMsg_mem tides (by rw [hlen]; exact hne), ?_⟩
      unfold strStarts
      simp only [String.data_append, List.append_assoc]
      rw [strStartsChars_append "Day count mismatch".data
        "Day count mismatch: Found ".data _ (by decide)]
      decide
  · intro raw
    rfl

/-- Witness for C5: a one-entry list has 1 ≠ 365 distinct dates, so the
day-count issue is reported; and the pipeline equality at that input. -/
theorem claim_C5_wit :
    (∃ s ∈ validate_data [⟨"2026-01-05", "06:12", ⟨false, 15, 100⟩, "low"⟩],
      strStarts "Day count mismatch" s = true) ∧
    mainTides [⟨"2026-01-05", "06:12", ⟨false, 15, 100⟩⟩] =
      classify_tides (dedupEntries [⟨"2026-01-05", "06:12", ⟨false, 15, 100⟩⟩]) :=
  ⟨(claim_C5.1 [⟨"2026-01-05", "06:12", ⟨false, 15, 100⟩, "low"⟩]).mpr (by decide),
   claim_C5.2 [⟨"2026-01-05", "06:12", ⟨false, 15, 100⟩⟩]⟩

/-- Every date in the ordered key list of `day_counts` is the date of
some entry. -/
theorem mem_datesInOrder_exists (tides : List TypedEntry) (d : String)
    (hd : d ∈ datesInOrder tides) : ∃ t ∈ tides, t.date = d := by
  suffices h : ∀ (l : List TypedEntry) (acc : List String),
      d ∈ l.foldl (fun acc t => insertDate acc t.date) acc →
        d ∈ acc ∨ ∃ t ∈ l, t.date = d by
    rcases h tides [] hd with hacc | hex
    · simp at hacc
    · exact hex
  intro l
  induction l with
  | nil => intro acc h; exact Or.inl (by simpa using h)
  | cons t ts ih =>
    intro acc h
    simp only [List.foldl_cons] at h
    rcases ih (insertDate acc t.date) h with hacc | hex
    · unfold insertDate at hacc
      by_cases hmem : t.date ∈ acc
      · rw [if_pos hmem] at hacc
        exact Or.inl hacc
      · rw [if_neg hmem] at hacc
        rcases List.mem_append.mp hacc with h1 | h1
        · exact Or.inl h1
        · exact Or.inr ⟨t, by simp, (List.mem_singleton.mp h1).symm⟩
    · obtain ⟨t2, ht2, rfl⟩ := hex
      exact Or.inr ⟨t2, by simp [ht2], rfl⟩

/-- C10: every date in the per-date count map of `validate_data` has a
count of at least 1, so the `c < 1` disjunct is unreachable and the
suspicious-day list is exactly the list of dates with more than 4
entries. -/
theorem claim_C10 (tides : List TypedEntry) :
    (∀ d ∈ datesInOrder tides, 1 ≤ countDate tides d) ∧
    suspiciousDays tides =
      (datesInOrder tides).filter (fun d => decide (4 < countDate tides d)) := by
  have hcount : ∀ d ∈ datesInOrder tides, 1 ≤ countDate tides d := by
    intro d hd
    obtain ⟨t, ht, rfl⟩ := mem_datesInOrder_exists tides d hd
    have hpos : 0 < countDate tides t.date := by
      rw [countDate, List.countP_pos_iff]
      exact ⟨t, ht, by simp⟩
    omega
  refine ⟨hcount, ?_⟩
  unfold suspiciousDays
  apply List.filter_congr
  intro d hd
  have h1 := hcount d hd
  have h2 : decide (countDate tides d < 1) = false := by
    simp only [decide_eq_false_iff_not, not_lt]
    omega
  rw [h2, Bool.false_or]

/-- Witness for C10 at a two-entry list over one date. -/
theorem claim_C10_wit :
    1 ≤ countDate
      [⟨"2026-01-05", "06:12", ⟨false, 15, 100⟩, "low"⟩,
       ⟨"2026-01-05", "12:05", ⟨false, 162, 100⟩, "high"⟩] "2026-01-05" ∧
    suspiciousDays
      [⟨"2026-01-05", "06:12", ⟨false, 15, 100⟩, "low"⟩,
       ⟨"2026-01-05", "12:05", ⟨false, 162, 100⟩, "high"⟩] =
      (datesInOrder
        [⟨"2026-01-05", "06:12", ⟨false, 15, 100⟩, "low"⟩,
         ⟨"2026-01-05", "12:05", ⟨false, 162, 100⟩, "high"⟩]).filter
        (fun d => decide (4 < countDate
          [⟨"2026-01-05", "06:12", ⟨false, 15, 100⟩, "low"⟩,
           ⟨"2026-01-05", "12:05", ⟨false, 162, 100⟩, "high"⟩] d)) :=
  ⟨(claim_C10 _).1 "2026-01-05" (by decide), (claim_C10 _).2⟩
